import Mathlib

/-!
Verification of the flux shared-memory message transport
(`crates/flux-communication`, `crates/flux-network`, `crates/flux-timing`).

The Rust code is shallowly embedded: `u64`/`usize` values become `Nat` with an
explicit `% 2 ^ 64` wherever the source arithmetic can wrap, fixed-size records
become an arbitrary copy type `T`, and each stateful operation becomes a pure
function from the old state to the new state (the sequential semantics of the
source, i.e. the behaviour when no other thread interleaves).  Operations
that in the source busy-wait forever in the absence of a concurrent writer
are given an explicit outcome (`spin` / `none` / `stuck`) rather than a value.
-/

namespace Flux

/-- Modulus of `u64`/`usize` (64-bit) machine arithmetic. -/
def U64 : Nat := 2 ^ 64

/-! ## Seqlock cell (`crates/flux-communication/src/seqlock.rs`)

`Seqlock<T> { version: AtomicU64, data: UnsafeCell<T> }`.
A cell is a pair of the version counter and the stored datum. -/

structure Seqlock (T : Type) where
  version : Nat
  data : T
deriving DecidableEq, Repr

/-- Error type `EmptyError` (`error.rs`). -/
inductive EmptyError where
  | empty
deriving DecidableEq, Repr

/-- Error type `ReadError` (`error.rs`). -/
inductive ReadError where
  | spedPast
  | empty
deriving DecidableEq, Repr

/-- Source `Seqlock::new(val)`: version starts at 2, data at `val`. -/
def Seqlock.new (val : T) : Seqlock T :=
  { version := 2, data := val }

/-- Source `<Seqlock<T> as Default>::default()`: version 0 (also the state of a
zero-initialised shared-memory cell); `z` stands for `T::default()`
(respectively the zeroed datum). -/
def Seqlock.mkDefault (z : T) : Seqlock T :=
  { version := 0, data := z }

/-- Source `Seqlock::was_ever_written`: `version() > 1`. -/
def Seqlock.was_ever_written (c : Seqlock T) : Bool :=
  decide (1 < c.version)

/-- Result of `Seqlock::read`.  `read` loops: with no concurrent writer it
returns as soon as the version is stable, so sequentially it yields `ok`
(even version `≥ 2`), `empty` (version `< 2`), or — for an odd version `≥ 3`,
which no writer will ever complete — it spins forever, modelled as `spin`. -/
inductive SeqReadResult (T : Type) where
  | ok (val : T)
  | empty
  | spin
deriving DecidableEq, Repr

/-- Source `Seqlock::read(result)`: sequential semantics of the retry loop
(`v1 < 2 → Empty`; `v1 = v2` even → `Ok` with the datum; odd → retry forever). -/
def Seqlock.read (c : Seqlock T) : SeqReadResult T :=
  if c.version < 2 then .empty
  else if c.version % 2 = 0 then .ok c.data
  else .spin

/-- Source `Seqlock::read_with_version(result, expected_version)`: single attempt.
Sequentially `v1 = v2 = version`: `v1 < expected → Empty`; `v2 = expected →
Ok` with the datum; otherwise `SpedPast`. -/
def Seqlock.read_with_version (c : Seqlock T) (expected_version : Nat) :
    Except ReadError T :=
  if c.version < expected_version then .error .empty
  else if c.version = expected_version then .ok c.data
  else .error .spedPast

/-- Source `Seqlock::write(data)`: `v = fetch_add(1)` (odd, writer active), store the
datum, then `store(v.wrapping_add(2))`.  Net sequential effect on the cell. -/
def Seqlock.write (c : Seqlock T) (d : T) : Seqlock T :=
  { version := (c.version + 2) % U64, data := d }

/-- Source `Seqlock::write_unpoison(data)`: loads `v`, stores
`v.wrapping_add(v.wrapping_sub(1) & 1)` (leaves `v` if odd, `v+1` if even),
writes the datum, then finally stores `v.wrapping_add(1)` — so the net effect
is version `(v + 1) % 2^64` with the new datum. -/
def Seqlock.write_unpoison (c : Seqlock T) (d : T) : Seqlock T :=
  { version := (c.version + 1) % U64, data := d }

/-- Source `Seqlock::write_multi_producer(data)`: spins `fetch_or(1)` until the prior
value `v` is even (claiming the cell), writes the datum, then stores
`v.wrapping_add(2)`.  Sequentially a cell left odd is never released, so the
spin never ends: modelled as `none`. -/
def Seqlock.write_multi_producer (c : Seqlock T) (d : T) : Option (Seqlock T) :=
  if c.version % 2 = 0 then some { version := (c.version + 2) % U64, data := d }
  else none

/-- Source `Seqlock::write_at_version(data, current_version)`: CAS
`current_version → current_version + 1`; on success write the datum and store
`v.wrapping_add(2)` and return `true`, else leave the cell and return `false`. -/
def Seqlock.write_at_version (c : Seqlock T) (d : T) (current_version : Nat) :
    Seqlock T × Bool :=
  if c.version = current_version then
    ({ version := (current_version + 2) % U64, data := d }, true)
  else (c, false)

/-! ## Ring queue (`crates/flux-communication/src/queue.rs`) -/

/-- Source `QueueType` (`#[repr(u8)] enum QueueType { Unknown, MPMC, SPMC }`). -/
inductive QueueType where
  | Unknown
  | MPMC
  | SPMC
deriving DecidableEq, Repr

/-- Source `QueueError` (`error.rs`), without the foreign `ShmemError` payload. -/
inductive QueueError where
  | unInitialized
  | lengthNotPowerOfTwo
  | elementSizeChanged (was now : Nat)
  | elementPoisoned (idx : Nat)
  | nonExistingFile
  | tooSmall
deriving DecidableEq, Repr

/-- Source `usize::is_power_of_two` (`count_ones() == 1`): true exactly on `2^k`. -/
def is_power_of_two : Nat → Bool
  | 0 => false
  | 1 => true
  | n + 2 => (n + 2) % 2 = 0 && is_power_of_two ((n + 2) / 2)
decreasing_by exact Nat.div_lt_self (by omega) (by omega)

/-- Source `QueueHeader`: queue type, `is_initialized: u8`, element size, `mask`
(`N - 1`) and the producer counter. -/
structure QueueHeader where
  queue_type : QueueType
  is_initialized : Nat
  elsize : Nat
  mask : Nat
  count : Nat
deriving DecidableEq, Repr

/-- Source `QueueHeader::len()`: `mask + 1`. -/
def QueueHeader.len (h : QueueHeader) : Nat := h.mask + 1

/-- Source `InnerQueue<T>`: header plus the cell buffer.  The source's unsized
`[Seqlock<T>]` buffer of `mask + 1` cells is a function from the index; the
code only ever indexes it with `… & mask < mask + 1`. -/
structure InnerQueue (T : Type) where
  queue_type : QueueType
  mask : Nat
  count : Nat
  buffer : Nat → Seqlock T

/-- Source `InnerQueue::from_uninitialized_ptr(ptr, len, queue_type)` applied to the
zero-filled allocation of `InnerQueue::new` / a fresh shared region: sets
`mask = len - 1`, `count = 0`; every cell starts with version 0 and the
zeroed datum `z`. -/
def mkQueueRaw (len : Nat) (queue_type : QueueType) (z : T) : InnerQueue T :=
  { queue_type := queue_type, mask := len - 1, count := 0,
    buffer := fun _ => ⟨0, z⟩ }

/-- Source `InnerQueue::new(len, queue_type)`: rounds the requested length up with
`len.next_power_of_two()` and initialises the zeroed allocation. -/
def InnerQueue.new (len : Nat) (queue_type : QueueType) (z : T) : InnerQueue T :=
  mkQueueRaw len.nextPowerOfTwo queue_type z

/-- Source `InnerQueue::from_initialized_ptr(ptr)`: rejects a header whose
`mask + 1` is not a power of two, then one that is not initialised; on
success the attached queue has `len = mask + 1` slots (returned here). -/
def QueueHeader.from_initialized_ptr (h : QueueHeader) : Except QueueError Nat :=
  let len := h.mask + 1
  if ¬ (is_power_of_two len = true) then .error .lengthNotPowerOfTwo
  else if h.is_initialized ≠ 1 then .error .unInitialized
  else .ok len

/-- Source `InnerQueue::len` / `QueueHeader::len`: `mask + 1`. -/
def InnerQueue.len (q : InnerQueue T) : Nat := q.mask + 1

/-- Source `InnerQueue::n_slots`: `header.len()`. -/
def InnerQueue.n_slots (q : InnerQueue T) : Nat := q.len

/-- Source `InnerQueue::next_count`: `Unknown` panics (`none`); MPMC does
`count.fetch_add(1)`, SPMC a relaxed load + `wrapping_add(1)` store — both
sequentially return the old counter and bump it (mod `2^64`). -/
def InnerQueue.next_count (q : InnerQueue T) : Option (Nat × InnerQueue T) :=
  match q.queue_type with
  | .Unknown => none
  | .MPMC => some (q.count, { q with count := (q.count + 1) % U64 })
  | .SPMC => some (q.count, { q with count := (q.count + 1) % U64 })

/-- Source `InnerQueue::load(pos)`: `buffer.get_unchecked(pos)`. -/
def InnerQueue.load (q : InnerQueue T) (pos : Nat) : Seqlock T := q.buffer pos

/-- Source `InnerQueue::cur_pos`: `count() & mask`. -/
def InnerQueue.cur_pos (q : InnerQueue T) : Nat := q.count &&& q.mask

/-- Source `InnerQueue::last_pos`: `count().saturating_sub(1) & mask` (`Nat`
subtraction is saturating). -/
def InnerQueue.last_pos (q : InnerQueue T) : Nat := (q.count - 1) &&& q.mask

/-- Source `InnerQueue::version`: `((count() / (mask + 1)) << 1) + 2` as `u64`. -/
def InnerQueue.version (q : InnerQueue T) : Nat :=
  (((q.count / (q.mask + 1)) <<< 1) + 2) % U64

/-- Source `InnerQueue::last_version`:
`((count().saturating_sub(1) / (mask + 1)) << 1) + 2` as `u64`. -/
def InnerQueue.last_version (q : InnerQueue T) : Nat :=
  ((((q.count - 1) / (q.mask + 1)) <<< 1) + 2) % U64

/-- Source `InnerQueue::produce(item)`: `next_count`, then `write` the cell at
`next_count & mask`; returns the counter value before the increment. -/
def InnerQueue.produce (q : InnerQueue T) (item : T) :
    Option (Nat × InnerQueue T) :=
  (q.next_count).map fun cq =>
    (cq.1, { cq.2 with
      buffer := fun i =>
        if i = cq.1 &&& cq.2.mask then (cq.2.buffer i).write item
        else cq.2.buffer i })

/-- Source `InnerQueue::consume(el, ri, ri_ver)`: `load(ri).read_with_version`. -/
def InnerQueue.consume (q : InnerQueue T) (ri : Nat) (ri_ver : Nat) :
    Except ReadError T :=
  (q.load ri).read_with_version ri_ver

/-- Source `InnerQueue::consume_always(el, ri)`: `load(ri).read`. -/
def InnerQueue.consume_always (q : InnerQueue T) (ri : Nat) : SeqReadResult T :=
  (q.load ri).read

/-- Source `InnerQueue::produce_first(item)`: on SPMC, if the cell at
`count() & mask` has an odd version, `write_unpoison` it and return that
position without touching the counter; otherwise (and always on MPMC)
`produce`.  `Unknown` panics (`none`). -/
def InnerQueue.produce_first (q : InnerQueue T) (item : T) :
    Option (Nat × InnerQueue T) :=
  match q.queue_type with
  | .Unknown => none
  | .MPMC => q.produce item
  | .SPMC =>
    let p := q.count &&& q.mask
    if (q.load p).version % 2 = 1 then
      some (p, { q with
        buffer := fun i =>
          if i = p then (q.buffer i).write_unpoison item else q.buffer i })
    else q.produce item

/-- Source `ConsumerBare<T>` local state: position, mask and expected version.  The
source also stores an aliased pointer to the queue; here the queue is passed
to each operation explicitly (consumers never mutate it — they only perform
atomic loads and data reads). -/
structure ConsumerBare where
  pos : Nat
  mask : Nat
  expected_version : Nat
deriving DecidableEq, Repr

/-- Source `ConsumerBare::update_pos`: `pos = (pos + 1) & mask`;
`expected_version += 2 * (pos == 0)` (wrapping). -/
def ConsumerBare.update_pos (c : ConsumerBare) : ConsumerBare :=
  let pos := (c.pos + 1) &&& c.mask
  { c with
    pos := pos
    expected_version :=
      (c.expected_version + 2 * (if pos = 0 then 1 else 0)) % U64 }

/-- Source `ConsumerBare::try_consume(el)`: read the cell at `pos` with
`expected_version`; advance the local state only on `Ok`. -/
def ConsumerBare.try_consume (c : ConsumerBare) (q : InnerQueue T) :
    Except ReadError T × ConsumerBare :=
  match q.consume c.pos c.expected_version with
  | .ok v => (.ok v, c.update_pos)
  | .error e => (.error e, c)

/-- Source `ConsumerBare::from(queue)` (also `init_header`): snapshot
`pos = cur_pos()`, `expected_version = version()`, `mask`. -/
def ConsumerBare.from_queue (q : InnerQueue T) : ConsumerBare :=
  { pos := q.cur_pos, mask := q.mask, expected_version := q.version }

/-- Source `ConsumerBare::try_consume_last(message)`: return `Empty` if
`last_pos() < pos`; otherwise jump to `last_pos()` / `last_version()`,
`consume_always` that cell (note the position is updated *before* the read),
and on `Ok` advance past it. -/
def ConsumerBare.try_consume_last (c : ConsumerBare) (q : InnerQueue T) :
    SeqReadResult T × ConsumerBare :=
  let last := q.last_pos
  if last < c.pos then (.empty, c)
  else
    let c1 := { c with pos := q.last_pos, expected_version := q.last_version }
    match q.consume_always c1.pos with
    | .ok v => (.ok v, c1.update_pos)
    | .empty => (.empty, c1)
    | .spin => (.spin, c1)

/-- Source `k` successive `InnerQueue::produce` calls of `f 0, …, f (k-1)`
(`none` as soon as one panics, i.e. on an `Unknown` queue). -/
def produceN (q : InnerQueue T) (f : Nat → T) : Nat → Option (InnerQueue T)
  | 0 => some q
  | k + 1 => (produceN q f k).bind fun q1 => (q1.produce (f k)).map Prod.snd

/-- Source `k` successive `try_consume` calls, collecting each call's result. -/
def consumeRun (c : ConsumerBare) (q : InnerQueue T) :
    Nat → List (Except ReadError T) × ConsumerBare
  | 0 => ([], c)
  | k + 1 =>
    let rc := c.try_consume q
    let rest := consumeRun rc.2 q k
    (rc.1 :: rest.1, rest.2)

/-- Number of writes that slot `i` (`i < N`) of an `N`-slot ring has received
after `k` produces: one write per counter value `t < k` with `t % N = i`. -/
def writesTo (N k i : Nat) : Nat :=
  k / N + (if i < k % N then 1 else 0)

/-- Counter value of the most recent write to slot `i` after `k` produces
(meaningful when `writesTo N k i > 0`). -/
def lastWriteIdx (N k i : Nat) : Nat :=
  i + N * (writesTo N k i - 1)

/-- Expected cell state of slot `i < N` after `k` produces of `f 0 … f (k-1)`
on a fresh `N`-slot queue zeroed to `z` (versions small enough not to wrap). -/
def cellAt (N k i : Nat) (f : Nat → T) (z : T) : Seqlock T :=
  if writesTo N k i = 0 then ⟨0, z⟩
  else ⟨2 * writesTo N k i, f (lastWriteIdx N k i)⟩

/-- Consumer state after `j` successful `try_consume` calls on an `N`-slot
queue, starting from the consumer attached to the fresh queue. -/
def drainingConsumer (N j : Nat) : ConsumerBare :=
  ⟨j % N, N - 1, 2 + 2 * (j / N)⟩

/-! ## Publish delta (`crates/flux-timing/src/publish_delta.rs`)

`Instant(u64)` tick values are modelled as `Nat`. -/

/-- Source `PublishDelta(u64)`: top 16 bits publisher tile id, lower 48 bits the
tick delta since ingestion. -/
structure PublishDelta where
  val : Nat
deriving DecidableEq, Repr

/-- Source `PublishDelta::new(id: u16)`: `(id as u64) << 48`. -/
def PublishDelta.new (id : Nat) : PublishDelta := ⟨id <<< 48⟩

/-- Source `PublishDelta::from_ingestion_and_publish_t`: the `u64` subtraction
`publish_t.0 - origin_t.0` (which panics in debug builds when
`origin_t > publish_t`; the claims only concern `origin_t ≤ publish_t`, where
`Nat` subtraction agrees), masked to 48 bits, merged with the id bits. -/
def PublishDelta.from_ingestion_and_publish_t (d : PublishDelta)
    (origin_t publish_t : Nat) : PublishDelta :=
  ⟨((publish_t - origin_t) &&& 0x0000ffffffffffff) |||
    (d.val &&& 0xffff000000000000)⟩

/-- Source `PublishDelta::id`: `(self.0 >> 48) as u16`. -/
def PublishDelta.id (d : PublishDelta) : Nat := (d.val >>> 48) % 2 ^ 16

/-- Source `PublishDelta::delta`: `Instant(self.0 & 0x0000ffffffffffff)`. -/
def PublishDelta.delta (d : PublishDelta) : Nat :=
  d.val &&& 0x0000ffffffffffff

/-! ## Framed TCP stream (`crates/flux-network/src/tcp/stream.rs`)

Bytes are modelled as `Nat`; frame payloads as `List Nat`. -/

/-- Little-endian byte encoding of `v` on `k` bytes (`u32::to_le_bytes` for
`k = 4`, `u64::to_le_bytes` for `k = 8`). -/
def toLE : Nat → Nat → List Nat
  | 0, _ => []
  | k + 1, v => v % 256 :: toLE k (v / 256)

/-- Little-endian decoding (`u32::from_le_bytes` / `u64::from_le_bytes`). -/
def fromLE : List Nat → Nat
  | [] => 0
  | b :: bs => b + 256 * fromLE bs

/-- Frame length prefix size (4 bytes). -/
def LEN_HEADER_SIZE : Nat := 4
/-- Send-timestamp size (8 bytes). -/
def TS_HEADER_SIZE : Nat := 8
def FRAME_HEADER_SIZE : Nat := LEN_HEADER_SIZE + TS_HEADER_SIZE

/-- Source `TcpStream::serialise_frame` followed by the vectored write of
`[header_buf, send_buf]`: the wire bytes of one frame — payload length as a
`u32` (the cast truncates mod `2^32`) little-endian, the `u64` send
timestamp `now` little-endian, then the payload bytes. -/
def frameBytes (payload : List Nat) (now : Nat) : List Nat :=
  toLE 4 (payload.length % 2 ^ 32) ++ toLE 8 (now % 2 ^ 64) ++ payload

/-- Source `RxState`: header accumulation (`buf` holds the `have` bytes read so
far), or payload accumulation (`acc` is the filled prefix `rx_buf[..offset]`,
so `acc.length` is `offset`). -/
inductive RxState where
  | readingHeader (buf : List Nat)
  | readingPayload (msgLen : Nat) (acc : List Nat) (sendTs : Nat)
deriving DecidableEq, Repr

/-- Outcome of `read_frame` in the byte-stream model.  `stuck` marks the
states in which the source's outer `loop` spins forever without performing a
read or returning (both `while` guards false — reachable via a frame whose
decoded `msg_len` is `0`). -/
inductive ReadOutcome where
  | payloadDone (frame : List Nat) (sendTs : Nat) (rest : List Nat)
  | wouldBlock (st : RxState)
  | stuck (st : RxState)
deriving DecidableEq, Repr

/-- Source `TcpStream::read_frame` over an in-order byte stream.

`stream` lists the bytes the kernel still has to deliver (after them, `read`
reports `WouldBlock`); `chunks` schedules how many bytes
(`chunks.headD 0 + 1`, always ≥ 1) the kernel hands over per `read` call, so
theorems quantify over every possible chunking.  Each iteration reads into
the bytes still missing for the current phase only (`buf[have..]`,
`rx_buf[offset..msg_len]`), exactly as the source; an iteration whose `while`
guard is already false loops forever without reading — the explicit outcome
`stuck`. -/
def read_frame (st : RxState) (stream : List Nat) (chunks : List Nat) :
    ReadOutcome :=
  match st with
  | .readingHeader buf =>
    if h12 : FRAME_HEADER_SIZE ≤ buf.length then .stuck st
    else
      match stream with
      | [] => .wouldBlock st
      | x :: xs =>
        let n := min (FRAME_HEADER_SIZE - buf.length) (chunks.headD 0 + 1)
        let buf1 := buf ++ (x :: xs).take n
        if buf1.length = FRAME_HEADER_SIZE then
          read_frame
            (.readingPayload (fromLE (buf1.take LEN_HEADER_SIZE)) []
              (fromLE ((buf1.drop LEN_HEADER_SIZE).take TS_HEADER_SIZE)))
            ((x :: xs).drop n) chunks.tail
        else read_frame (.readingHeader buf1) ((x :: xs).drop n) chunks.tail
  | .readingPayload msgLen acc sendTs =>
    if hfull : msgLen ≤ acc.length then .stuck st
    else
      match stream with
      | [] => .wouldBlock st
      | x :: xs =>
        let n := min (msgLen - acc.length) (chunks.headD 0 + 1)
        let acc1 := acc ++ (x :: xs).take n
        if acc1.length = msgLen then .payloadDone acc1 sendTs ((x :: xs).drop n)
        else read_frame (.readingPayload msgLen acc1 sendTs)
               ((x :: xs).drop n) chunks.tail
termination_by stream.length
decreasing_by
  all_goals simp [List.length_drop]
  all_goals omega

/-- Source `ConnState`. -/
inductive ConnState where
  | alive
  | disconnected
deriving DecidableEq, Repr

/-- Outcome of one non-blocking socket write (`write` / `write_vectored`):
`n` bytes written, would-block, or a fatal error. -/
inductive WriteOutcome where
  | wrote (n : Nat)
  | wouldBlock
  | err
deriving DecidableEq, Repr

/-- Send-side state of `TcpStream`: the backlog of queued byte vectors and
the `writable_armed` flag.  `Registry::reregister` is modelled as infallible;
in the source a reregister failure returns `ConnState::Disconnected` and the
stream is torn down and rebuilt. -/
structure SendState where
  send_backlog : List (List Nat)
  writable_armed : Bool
deriving DecidableEq, Repr

/-- Send state of a freshly constructed stream
(`from_stream_with_telemetry`). -/
def initSendState : SendState := ⟨[], false⟩

/-- Source `TcpStream::arm_writable`. -/
def arm_writable (st : SendState) : SendState × ConnState :=
  if ¬ st.writable_armed then ({ st with writable_armed := true }, .alive)
  else (st, .alive)

/-- Source `TcpStream::enqueue_front`. -/
def enqueue_front (st : SendState) (data : List Nat) : SendState × ConnState :=
  arm_writable { st with send_backlog := data :: st.send_backlog }

/-- Source `TcpStream::enqueue_back`. -/
def enqueue_back (st : SendState) (data : List Nat) : SendState × ConnState :=
  arm_writable { st with send_backlog := st.send_backlog ++ [data] }

/-- Source `TcpStream::write_or_enqueue_with`, after `serialise_frame` filled
`header_buf` (12 bytes) and `send_buf` (the payload); `w` is the outcome of
the vectored write of header + payload (consulted only when the backlog is
empty, as in the source). -/
def write_or_enqueue_with (st : SendState) (header payload : List Nat)
    (w : WriteOutcome) : SendState × ConnState :=
  if st.send_backlog ≠ [] then
    enqueue_back (enqueue_back st header).1 payload
  else
    match w with
    | .wrote 0 => (st, .disconnected)
    | .wrote n =>
      if n = payload.length + FRAME_HEADER_SIZE then (st, .alive)
      else if n < FRAME_HEADER_SIZE then
        enqueue_front (enqueue_front st payload).1 (header.drop n)
      else enqueue_front st (payload.drop (n - FRAME_HEADER_SIZE))
    | .wouldBlock => enqueue_back (enqueue_back st header).1 payload
    | .err => (st, .disconnected)

/-- The `drain_backlog` while-loop: one write outcome from `outs` per
`stream.write(front)` call (an exhausted `outs` stands for `WouldBlock`).
Returns the remaining backlog and whether the loop early-returned
`Disconnected` (on a zero-length write or fatal error). -/
def drain_loop : List (List Nat) → List WriteOutcome → List (List Nat) × Bool
  | [], _ => ([], false)
  | front :: rest, [] => (front :: rest, false)
  | front :: rest, w :: ws =>
    match w with
    | .wrote 0 => (front :: rest, true)
    | .wrote n =>
      if n = front.length then drain_loop rest ws
      else drain_loop (front.drop n :: rest) ws
    | .wouldBlock => (front :: rest, false)
    | .err => (front :: rest, true)

/-- Source `TcpStream::drain_backlog`: flush, then drop WRITABLE interest only when
fully drained (skipped on the early `Disconnected` return). -/
def drain_backlog (st : SendState) (outs : List WriteOutcome) :
    SendState × ConnState :=
  match drain_loop st.send_backlog outs with
  | (bl, true) => ({ st with send_backlog := bl }, .disconnected)
  | (bl, false) =>
    if bl.isEmpty && st.writable_armed then
      ({ send_backlog := bl, writable_armed := false }, .alive)
    else ({ st with send_backlog := bl }, .alive)

end Flux

namespace Flux

/-! ## Theorems: seqlock cell claims -/

theorem U64_pos : 0 < U64 := by decide

/-- C1 (amended).  Completed writes keep the version even: `write` takes an
even version `v` to `v + 2`, a successful `write_at_version` at an even
claimed version `v` goes to `v + 2`, `write_multi_producer` takes the claimed
even version `v` to `v + 2`; `write_unpoison` applied to a cell with an
*odd* (poisoned) version leaves a valid even version `v + 1` with the written
datum readable, while applied to a *pristine* (version `0`) cell it leaves
the odd (poisoned) version `1`.  Bounds `… < U64` rule out `u64` wrap-around. -/
theorem c1_write_ops_version_even {T : Type} (c : Seqlock T) (d : T)
    (hb : c.version + 2 < U64) :
    (c.version % 2 = 0 →
      c.write d = ⟨c.version + 2, d⟩ ∧ (c.write d).version % 2 = 0 ∧
      c.write_multi_producer d = some ⟨c.version + 2, d⟩ ∧
      c.write_at_version d c.version = (⟨c.version + 2, d⟩, true)) ∧
    (∀ v, v + 2 < U64 → v % 2 = 0 → (c.write_at_version d v).2 = true →
      (c.write_at_version d v).1 = ⟨v + 2, d⟩) ∧
    (c.version % 2 = 1 →
      c.write_unpoison d = ⟨c.version + 1, d⟩ ∧
      (c.write_unpoison d).version % 2 = 0 ∧
      (c.write_unpoison d).read = .ok d) ∧
    (c.version = 0 → c.write_unpoison d = ⟨1, d⟩) := by
  have hmod : (c.version + 2) % U64 = c.version + 2 := Nat.mod_eq_of_lt hb
  have hmod1 : (c.version + 1) % U64 = c.version + 1 :=
    Nat.mod_eq_of_lt (by omega)
  refine ⟨fun hev => ?_, fun v hv hev hsucc => ?_, fun hodd => ?_, fun h0 => ?_⟩
  · refine ⟨?_, ?_, ?_, ?_⟩
    · simp [Seqlock.write, hmod]
    · simp [Seqlock.write, hmod]; omega
    · simp [Seqlock.write_multi_producer, hev, hmod]
    · simp [Seqlock.write_at_version, hmod]
  · unfold Seqlock.write_at_version at hsucc ⊢
    by_cases h : c.version = v
    · simp [h, Nat.mod_eq_of_lt hv]
    · simp [h] at hsucc
  · have h2 : 2 ≤ c.version + 1 := by omega
    refine ⟨?_, ?_, ?_⟩
    · simp [Seqlock.write_unpoison, hmod1]
    · simp [Seqlock.write_unpoison, hmod1]; omega
    · simp only [Seqlock.write_unpoison, Seqlock.read, hmod1]
      rw [if_neg (by omega), if_pos (by omega)]
  · simp [Seqlock.write_unpoison, h0]
    decide

/-- C1 witness: the theorem applied to the cell `⟨2, 0⟩` and datum `7`. -/
theorem c1_write_ops_version_even_witness :
    (2 : Nat) + 2 < U64 ∧ (2 : Nat) % 2 = 0 ∧
    Seqlock.write (Seqlock.mk (2 : Nat) (0 : Nat)) 7 = ⟨2 + 2, 7⟩ :=
  ⟨by decide, by decide,
    ((c1_write_ops_version_even (Seqlock.mk 2 0) 7 (by decide)).1 (by decide)).1⟩

/-- C1 counterexample: `write_unpoison` on a pristine cell (version 0) leaves
version 1 — odd, hence poisoned, not a "valid even version" — and the cell
reads as `Empty`, so the written datum is not readable. -/
theorem c1_write_unpoison_pristine_counterexample :
    (Seqlock.write_unpoison (Seqlock.mkDefault (0 : Nat)) 5).version = 1 ∧
    (Seqlock.write_unpoison (Seqlock.mkDefault (0 : Nat)) 5).read =
      SeqReadResult.empty := by
  constructor
  · show (0 + 1) % U64 = 1
    decide
  · show Seqlock.read ⟨(0 + 1) % U64, 5⟩ = SeqReadResult.empty
    decide

/-- C10.  A cell built with `Seqlock::new(v)` starts at version 2, is
immediately readable (`read` yields `v`) and reports `was_ever_written`,
although no write operation ever ran on it; a `Default`-constructed (or
zero-initialised) cell starts at version 0 and `read` returns `Empty`. -/
theorem c10_new_readable_default_empty {T : Type} (v z : T) :
    (Seqlock.new v).version = 2 ∧
    (Seqlock.new v).read = .ok v ∧
    (Seqlock.new v).was_ever_written = true ∧
    (Seqlock.mkDefault z).version = 0 ∧
    (Seqlock.mkDefault z).read = (SeqReadResult.empty : SeqReadResult T) :=
  ⟨rfl, by simp [Seqlock.new, Seqlock.read], rfl, rfl,
    by simp [Seqlock.mkDefault, Seqlock.read]⟩

/-! ## Ring-queue bookkeeping lemmas -/

theorem writesTo_le (N k i : Nat) : writesTo N k i ≤ k / N + 1 := by
  unfold writesTo; split <;> omega

theorem writesTo_succ (N k i : Nat) (hN : 0 < N) (hi : i < N) :
    writesTo N (k + 1) i = writesTo N k i + (if i = k % N then 1 else 0) := by
  have hd := Nat.div_add_mod k N
  have hr : k % N < N := Nat.mod_lt _ hN
  rcases Nat.lt_or_ge (k % N + 1) N with hlt | hge
  · have hk1 : k + 1 = (k % N + 1) + N * (k / N) := by omega
    have h1 : (k + 1) % N = k % N + 1 := by
      rw [hk1, Nat.add_mul_mod_self_left, Nat.mod_eq_of_lt hlt]
    have h2 : (k + 1) / N = k / N := by
      rw [hk1, Nat.add_mul_div_left _ _ hN, Nat.div_eq_of_lt hlt]
      omega
    unfold writesTo
    rw [h1, h2]
    split_ifs <;> omega
  · have hEq : k % N + 1 = N := by omega
    have hk1 : k + 1 = (k / N + 1) * N := by
      calc k + 1 = N * (k / N) + (k % N + 1) := by omega
        _ = N * (k / N) + N := by rw [hEq]
        _ = (k / N + 1) * N := by ring
    have h1 : (k + 1) % N = 0 := by rw [hk1]; exact Nat.mul_mod_left _ _
    have h2 : (k + 1) / N = k / N + 1 := by
      rw [hk1]; exact Nat.mul_div_cancel _ hN
    unfold writesTo
    rw [h1, h2]
    split_ifs <;> omega

theorem lastWriteIdx_last (N k : Nat) (hN : 0 < N) :
    lastWriteIdx N (k + 1) (k % N) = k := by
  have hs := writesTo_succ N k (k % N) hN (Nat.mod_lt _ hN)
  have hw : writesTo N k (k % N) = k / N := by
    unfold writesTo; simp
  unfold lastWriteIdx
  rw [hs, hw]
  simp only [if_pos rfl, Nat.add_sub_cancel]
  calc k % N + N * (k / N) = N * (k / N) + k % N := by ring
    _ = k := Nat.div_add_mod k N

/-- State of a power-of-two queue after `k` produces of `f 0 … f (k - 1)`
starting from the freshly initialised (zeroed) queue: the counter is `k` and
slot `i < N` holds `cellAt N k i f z`.  The bound `hk` keeps every cell
version and the counter below `2^64`. -/
theorem produceN_spec {T : Type} (m k : Nat) (qt : QueueType) (z : T)
    (f : Nat → T) (hqt : qt ≠ .Unknown) (hcnt : k < U64)
    (hver : 2 * (k / 2 ^ m) + 4 < U64) :
    ∃ Q : InnerQueue T,
      produceN (mkQueueRaw (2 ^ m) qt z) f k = some Q ∧
      Q.queue_type = qt ∧ Q.mask = 2 ^ m - 1 ∧ Q.count = k ∧
      ∀ i, i < 2 ^ m → Q.buffer i = cellAt (2 ^ m) k i f z := by
  have hN : 0 < 2 ^ m := Nat.pos_pow_of_pos m (by omega)
  induction k with
  | zero =>
    refine ⟨mkQueueRaw (2 ^ m) qt z, rfl, rfl, rfl, rfl, fun i hi => ?_⟩
    simp [mkQueueRaw, cellAt, writesTo]
  | succ k ih =>
    have hdivle : k / 2 ^ m ≤ (k + 1) / 2 ^ m :=
      Nat.div_le_div_right (Nat.le_succ k)
    obtain ⟨Q, hQ, hqt', hmask, hcount, hbuf⟩ := ih (by omega) (by omega)
    have hpos : k &&& (2 ^ m - 1) = k % 2 ^ m := Nat.and_pow_two_sub_one_eq_mod k m
    have hmod : (k + 1) % U64 = k + 1 := Nat.mod_eq_of_lt hcnt
    have hnext : Q.next_count = some (k, { Q with count := (k + 1) % U64 }) := by
      unfold InnerQueue.next_count
      rcases qt with _ | _ | _
      · exact absurd rfl hqt
      · rw [hqt', hcount]
      · rw [hqt', hcount]
    refine ⟨{ queue_type := Q.queue_type, mask := Q.mask, count := (k + 1) % U64,
              buffer := fun i => if i = k &&& Q.mask then (Q.buffer i).write (f k)
                        else Q.buffer i }, ?_, hqt', hmask, by rw [hmod], ?_⟩
    · show (produceN (mkQueueRaw (2 ^ m) qt z) f k).bind
          (fun q1 => (q1.produce (f k)).map Prod.snd) = _
      rw [hQ]
      show (Q.produce (f k)).map Prod.snd = _
      unfold InnerQueue.produce
      rw [hnext]
      rfl
    · intro i hi
      show (if i = k &&& Q.mask then (Q.buffer i).write (f k) else Q.buffer i)
            = cellAt (2 ^ m) (k + 1) i f z
      rw [hmask, hpos]
      have hws := writesTo_succ (2 ^ m) k i hN hi
      by_cases hik : i = k % 2 ^ m
      · rw [if_pos hik, hbuf i hi]
        have hwidx : lastWriteIdx (2 ^ m) (k + 1) i = k := by
          rw [hik]; exact lastWriteIdx_last (2 ^ m) k hN
        have hw1 : writesTo (2 ^ m) (k + 1) i = writesTo (2 ^ m) k i + 1 := by
          rw [hws, if_pos hik]
        have hvlt : 2 * writesTo (2 ^ m) k i + 2 < U64 := by
          have h1 := writesTo_le (2 ^ m) k i
          omega
        have hver : (cellAt (2 ^ m) k i f z).version = 2 * writesTo (2 ^ m) k i := by
          unfold cellAt
          split
          · rename_i hz; rw [hz]
          · rfl
        have hwr : Seqlock.write (cellAt (2 ^ m) k i f z) (f k)
            = ⟨2 * writesTo (2 ^ m) k i + 2, f k⟩ := by
          unfold Seqlock.write
          rw [hver, Nat.mod_eq_of_lt hvlt]
        rw [hwr]
        unfold cellAt
        rw [hw1, if_neg (by omega), hwidx]
        congr 1
      · rw [if_neg hik, hbuf i hi]
        have hlw : lastWriteIdx (2 ^ m) (k + 1) i = lastWriteIdx (2 ^ m) k i := by
          unfold lastWriteIdx
          rw [hws, if_neg hik, Nat.add_zero]
        unfold cellAt
        rw [hws, if_neg hik, Nat.add_zero, hlw]

theorem writesTo_of_le (N k i : Nat) (hN : 0 < N) (hk : k ≤ N) (hi : i < N) :
    writesTo N k i = if i < k then 1 else 0 := by
  unfold writesTo
  rcases Nat.lt_or_ge k N with h | h
  · rw [Nat.div_eq_of_lt h, Nat.mod_eq_of_lt h]
    split_ifs <;> omega
  · have hkN : k = N := by omega
    subst hkN
    rw [Nat.div_self hN, Nat.mod_self]
    split_ifs <;> omega

theorem cellAt_of_le {T : Type} (N k i : Nat) (f : Nat → T) (z : T)
    (hN : 0 < N) (hk : k ≤ N) (hi : i < N) :
    cellAt N k i f z = if i < k then ⟨2, f i⟩ else ⟨0, z⟩ := by
  unfold cellAt lastWriteIdx
  rw [writesTo_of_le N k i hN hk hi]
  by_cases h : i < k <;> simp [h]

/-- Draining a ≤ one-lap batch: starting at the `j`-th record of `k ≤ N`
produced ones, `k - j` consumes succeed in order and the next returns
`Empty`. -/
theorem consumeRun_drain {T : Type} (m k : Nat) (f : Nat → T) (z : T)
    (Q : InnerQueue T) (hk : k ≤ 2 ^ m)
    (hbuf : ∀ i, i < 2 ^ m → Q.buffer i = cellAt (2 ^ m) k i f z) :
    ∀ d j, j + d = k →
      consumeRun (drainingConsumer (2 ^ m) j) Q (d + 1)
        = ((List.range' j d).map (fun i => Except.ok (f i))
            ++ [Except.error ReadError.empty], drainingConsumer (2 ^ m) k) := by
  have hN : 0 < 2 ^ m := Nat.pos_pow_of_pos m (by omega)
  intro d
  induction d with
  | zero =>
    intro j hj
    have hjk : j = k := by omega
    subst hjk
    have hmlt : j % 2 ^ m < 2 ^ m := Nat.mod_lt _ hN
    have hver : (Q.buffer (j % 2 ^ m)).version = 2 * (j / 2 ^ m) := by
      rw [hbuf (j % 2 ^ m) hmlt]
      unfold cellAt
      have hw : writesTo (2 ^ m) j (j % 2 ^ m) = j / 2 ^ m := by
        unfold writesTo; simp
      rw [hw]
      split
      · rename_i hz; rw [hz]
      · rfl
    have hcons : Q.consume (drainingConsumer (2 ^ m) j).pos
        (drainingConsumer (2 ^ m) j).expected_version = .error .empty := by
      show Q.consume (j % 2 ^ m) (2 + 2 * (j / 2 ^ m)) = .error .empty
      unfold InnerQueue.consume InnerQueue.load Seqlock.read_with_version
      rw [hver, if_pos (by omega)]
    have htc : (drainingConsumer (2 ^ m) j).try_consume Q
        = (.error .empty, drainingConsumer (2 ^ m) j) := by
      unfold ConsumerBare.try_consume
      rw [hcons]
    simp [consumeRun, htc]
  | succ d ihd =>
    intro j hj
    have hjk : j < k := by omega
    have hjN : j < 2 ^ m := by omega
    have hcell : Q.buffer j = ⟨2, f j⟩ := by
      rw [hbuf j hjN, cellAt_of_le (2 ^ m) k j f z hN hk hjN, if_pos hjk]
    have hjm : j % 2 ^ m = j := Nat.mod_eq_of_lt hjN
    have hjd : j / 2 ^ m = 0 := Nat.div_eq_of_lt hjN
    have hcons : Q.consume (drainingConsumer (2 ^ m) j).pos
        (drainingConsumer (2 ^ m) j).expected_version = .ok (f j) := by
      show Q.consume (j % 2 ^ m) (2 + 2 * (j / 2 ^ m)) = .ok (f j)
      unfold InnerQueue.consume InnerQueue.load Seqlock.read_with_version
      rw [hjm, hjd, hcell]
      norm_num
    have hand : (j + 1) &&& (2 ^ m - 1) = (j + 1) % 2 ^ m :=
      Nat.and_pow_two_sub_one_eq_mod _ m
    have hupd : (drainingConsumer (2 ^ m) j).update_pos
        = drainingConsumer (2 ^ m) (j + 1) := by
      rcases Nat.lt_or_ge (j + 1) (2 ^ m) with hlt | hge
      · have hm1 : (j + 1) % 2 ^ m = j + 1 := Nat.mod_eq_of_lt hlt
        have hd1 : (j + 1) / 2 ^ m = 0 := Nat.div_eq_of_lt hlt
        have h0 : ¬ (j + 1 = 0) := by omega
        simp [ConsumerBare.update_pos, drainingConsumer, hjm, hjd, hand, hm1,
          hd1, h0, U64]
      · have hj1 : j + 1 = 2 ^ m := by omega
        simp [ConsumerBare.update_pos, drainingConsumer, hjm, hjd, hand, hj1,
          Nat.mod_self, Nat.div_self hN, U64]
    have htc : (drainingConsumer (2 ^ m) j).try_consume Q
        = (.ok (f j), drainingConsumer (2 ^ m) (j + 1)) := by
      unfold ConsumerBare.try_consume
      rw [hcons, hupd]
    have hrec := ihd (j + 1) (by omega)
    have hrange : List.range' j (d + 1) = j :: List.range' (j + 1) d := rfl
    have hstep : consumeRun (drainingConsumer (2 ^ m) j) Q (d + 1 + 1)
        = (Except.ok (f j) ::
             (consumeRun (drainingConsumer (2 ^ m) (j + 1)) Q (d + 1)).1,
           (consumeRun (drainingConsumer (2 ^ m) (j + 1)) Q (d + 1)).2) := by
      show ((((drainingConsumer (2 ^ m) j).try_consume Q).1 ::
          (consumeRun ((drainingConsumer (2 ^ m) j).try_consume Q).2
            Q (d + 1)).1),
          (consumeRun ((drainingConsumer (2 ^ m) j).try_consume Q).2
            Q (d + 1)).2) = _
      rw [htc]
    rw [hstep, hrec, hrange]
    simp

theorem from_queue_fresh {T : Type} (N : Nat) (qt : QueueType) (z : T) :
    ConsumerBare.from_queue (mkQueueRaw N qt z) = ⟨0, N - 1, 2⟩ := by
  unfold ConsumerBare.from_queue mkQueueRaw InnerQueue.cur_pos
    InnerQueue.version
  simp [Nat.zero_and, U64]

/-- C2.  On either queue type, after producing `k ≤ N` values
`f 0 … f (k - 1)` into a freshly created queue of `N = 2 ^ m` slots, a fresh
consumer's next `k` `try_consume` calls return `Ok` with exactly the produced
values in production order, and the `(k + 1)`-th call returns `Empty`. -/
theorem c2_produce_consume_fifo {T : Type} (m k : Nat) (qt : QueueType)
    (z : T) (f : Nat → T) (hqt : qt = .MPMC ∨ qt = .SPMC) (hm : m < 64)
    (hk : k ≤ 2 ^ m) :
    ∀ Q, produceN (mkQueueRaw (2 ^ m) qt z) f k = some Q →
      (consumeRun (ConsumerBare.from_queue (mkQueueRaw (2 ^ m) qt z))
          Q (k + 1)).1
        = (List.range k).map (fun i => Except.ok (f i))
            ++ [Except.error ReadError.empty] := by
  intro Q hQ
  have hN : 0 < 2 ^ m := Nat.pos_pow_of_pos m (by omega)
  have hqt' : qt ≠ QueueType.Unknown := by
    rcases hqt with h | h <;> (subst h; intro hc; cases hc)
  have hcnt : k < U64 := by
    have h1 : (2:Nat) ^ m ≤ 2 ^ 63 := Nat.pow_le_pow_right (by omega) (by omega)
    have h2 : (2:Nat) ^ 63 < 2 ^ 64 := by norm_num
    unfold U64; omega
  have hverb : 2 * (k / 2 ^ m) + 4 < U64 := by
    have h1 : k / 2 ^ m ≤ 2 ^ m / 2 ^ m := Nat.div_le_div_right hk
    rw [Nat.div_self hN] at h1
    have h2 : (6:Nat) < U64 := by unfold U64; norm_num
    omega
  obtain ⟨Q', hQ', hqt2, hmask, hcount, hbuf⟩ :=
    produceN_spec m k qt z f hqt' hcnt hverb
  rw [hQ] at hQ'
  injection hQ' with hQQ
  subst hQQ
  have hdc0 : ConsumerBare.from_queue (mkQueueRaw (2 ^ m) qt z)
      = drainingConsumer (2 ^ m) 0 := by
    rw [from_queue_fresh]
    unfold drainingConsumer
    congr 1 <;> simp
  rw [hdc0, consumeRun_drain m k f z Q hk hbuf k 0 (by omega)]
  rw [List.range_eq_range']

/-- C2 witness: two values through a 2-slot SPMC queue. -/
theorem c2_produce_consume_fifo_witness :
    ((QueueType.SPMC = QueueType.MPMC ∨ QueueType.SPMC = QueueType.SPMC) ∧
      1 < 64 ∧ 2 ≤ 2 ^ 1) ∧
    (consumeRun (ConsumerBare.from_queue
        (mkQueueRaw (2 ^ 1) QueueType.SPMC (0 : Nat)))
        ((produceN (mkQueueRaw (2 ^ 1) QueueType.SPMC (0 : Nat))
          (fun i => i + 10) 2).get (by decide))
        (2 + 1)).1
      = (List.range 2).map (fun i => Except.ok (i + 10))
          ++ [Except.error ReadError.empty] :=
  ⟨⟨Or.inr rfl, by decide, by decide⟩,
    c2_produce_consume_fifo 1 2 QueueType.SPMC 0 (fun i => i + 10)
      (Or.inr rfl) (by decide) (by decide) _ (Option.some_get _).symm⟩

theorem cellAt_version {T : Type} (N k i : Nat) (f : Nat → T) (z : T) :
    (cellAt N k i f z).version = 2 * writesTo N k i := by
  unfold cellAt
  split
  · rename_i hz; rw [hz]
  · rfl

/-- Writes received by the slot a consumer snapshotted at counter `c0`, once
the counter has reached `c0 + k`: the consumer's lap count `c0 / N` plus one
more per *complete or started* new lap, `k / N + [k % N > 0]`. -/
theorem writesTo_attach (N c0 k : Nat) (hN : 0 < N) :
    writesTo N (c0 + k) (c0 % N)
      = c0 / N + k / N + (if 0 < k % N then 1 else 0) := by
  have hd0 := Nat.div_add_mod c0 N
  have hd1 := Nat.div_add_mod k N
  have hr0 : c0 % N < N := Nat.mod_lt _ hN
  have hr1 : k % N < N := Nat.mod_lt _ hN
  unfold writesTo
  rcases Nat.lt_or_ge (c0 % N + k % N) N with hlt | hge
  · have hmul : N * (c0 / N + k / N) = N * (c0 / N) + N * (k / N) := by ring
    have hsum : c0 + k = (c0 % N + k % N) + N * (c0 / N + k / N) := by omega
    have hmod : (c0 + k) % N = c0 % N + k % N := by
      rw [hsum, Nat.add_mul_mod_self_left, Nat.mod_eq_of_lt hlt]
    have hdiv : (c0 + k) / N = c0 / N + k / N := by
      rw [hsum, Nat.add_mul_div_left _ _ hN, Nat.div_eq_of_lt hlt]
      omega
    rw [hmod, hdiv]
    split_ifs <;> omega
  · have hmul : N * (c0 / N + k / N + 1)
        = N * (c0 / N) + N * (k / N) + N := by ring
    have hsum : c0 + k = (c0 % N + k % N - N) + N * (c0 / N + k / N + 1) := by
      omega
    have hlt2 : c0 % N + k % N - N < N := by omega
    have hmod : (c0 + k) % N = c0 % N + k % N - N := by
      rw [hsum, Nat.add_mul_mod_self_left, Nat.mod_eq_of_lt hlt2]
    have hdiv : (c0 + k) / N = c0 / N + k / N + 1 := by
      rw [hsum, Nat.add_mul_div_left _ _ hN, Nat.div_eq_of_lt hlt2]
      omega
    rw [hmod, hdiv]
    split_ifs <;> omega

theorem over_lap_iff (N k : Nat) (hN : 0 < N) :
    2 ≤ k / N + (if 0 < k % N then 1 else 0) ↔ N < k := by
  have hd1 := Nat.div_add_mod k N
  have hr1 : k % N < N := Nat.mod_lt _ hN
  rcases Nat.lt_trichotomy (k / N) 1 with hq | hq | hq
  · have hq0 : k / N = 0 := Nat.lt_one_iff.mp hq
    rw [hq0] at hd1 ⊢
    split_ifs <;> omega
  · rw [hq] at hd1 ⊢
    split_ifs <;> omega
  · have h2 : N * 2 ≤ N * (k / N) := Nat.mul_le_mul_left N (by omega)
    split_ifs <;> omega

theorem try_consume_fst {T : Type} (c : ConsumerBare) (q : InnerQueue T) :
    (c.try_consume q).1
      = (if (q.buffer c.pos).version < c.expected_version then .error .empty
         else if (q.buffer c.pos).version = c.expected_version
         then .ok (q.buffer c.pos).data else .error .spedPast) := by
  unfold ConsumerBare.try_consume InnerQueue.consume InnerQueue.load
    Seqlock.read_with_version
  split_ifs <;> rfl

/-- C3.  Attach a fresh consumer to an `N = 2 ^ m`-slot queue whose counter is
`c0`; then produce `k` more records.  The consumer's first `try_consume`
returns `SpedPast` exactly when `k > N`; for `k ≤ N` it never does (the bound
`c0 + k ≤ 2 ^ 62` rules out `u64` counter/version wrap-around). -/
theorem c3_sped_past_iff {T : Type} (m c0 k : Nat) (qt : QueueType) (z : T)
    (f : Nat → T) (hqt : qt = .MPMC ∨ qt = .SPMC) (hb : c0 + k ≤ 2 ^ 62) :
    ∀ Q0 Q, produceN (mkQueueRaw (2 ^ m) qt z) f c0 = some Q0 →
      produceN (mkQueueRaw (2 ^ m) qt z) f (c0 + k) = some Q →
      (((ConsumerBare.from_queue Q0).try_consume Q).1
          = .error .spedPast ↔ 2 ^ m < k) := by
  intro Q0 Q hQ0 hQ
  have hN : 0 < 2 ^ m := Nat.pos_pow_of_pos m (by omega)
  have hqt' : qt ≠ QueueType.Unknown := by
    rcases hqt with h | h <;> (subst h; intro hc; cases hc)
  have hpow : (2:Nat) ^ 62 < 2 ^ 64 := by norm_num
  have hdle0 : c0 / 2 ^ m ≤ c0 := Nat.div_le_self _ _
  have hdle : (c0 + k) / 2 ^ m ≤ c0 + k := Nat.div_le_self _ _
  obtain ⟨Q0', hQ0', _, hmask0, hcount0, _⟩ :=
    produceN_spec m c0 qt z f hqt' (by unfold U64; omega) (by unfold U64; omega)
  obtain ⟨Q', hQ', _, hmask, hcount, hbuf⟩ :=
    produceN_spec m (c0 + k) qt z f hqt' (by unfold U64; omega)
      (by unfold U64; omega)
  rw [hQ0] at hQ0'
  injection hQ0' with h0; subst h0
  rw [hQ] at hQ'
  injection hQ' with h1; subst h1
  have hp : (ConsumerBare.from_queue Q0).pos = c0 % 2 ^ m := by
    show Q0.cur_pos = c0 % 2 ^ m
    unfold InnerQueue.cur_pos
    rw [hcount0, hmask0]
    exact Nat.and_pow_two_sub_one_eq_mod c0 m
  have he : (ConsumerBare.from_queue Q0).expected_version
      = 2 * (c0 / 2 ^ m) + 2 := by
    show Q0.version = 2 * (c0 / 2 ^ m) + 2
    unfold InnerQueue.version
    rw [hcount0, hmask0]
    have hm1 : 2 ^ m - 1 + 1 = 2 ^ m := by omega
    rw [hm1, Nat.shiftLeft_eq]
    rw [Nat.mod_eq_of_lt (by unfold U64; omega)]
    ring
  have hmlt : c0 % 2 ^ m < 2 ^ m := Nat.mod_lt _ hN
  have hvcell : (Q.buffer (c0 % 2 ^ m)).version
      = 2 * (c0 / 2 ^ m + k / 2 ^ m + (if 0 < k % 2 ^ m then 1 else 0)) := by
    rw [hbuf (c0 % 2 ^ m) hmlt, cellAt_version, writesTo_attach _ _ _ hN]
  rw [try_consume_fst, hp, he, hvcell]
  have hiff := over_lap_iff (2 ^ m) k hN
  revert hiff
  generalize (if 0 < k % 2 ^ m then 1 else 0) = ind
  intro hiff
  rcases Nat.lt_or_ge (2 ^ m) k with hNk | hNk
  · have h2 : 2 ≤ k / 2 ^ m + ind := hiff.2 hNk
    rw [if_neg (by omega), if_neg (by omega)]
    simp [hNk]
  · have h2 : k / 2 ^ m + ind ≤ 1 := by
      rcases Nat.lt_or_ge (k / 2 ^ m + ind) 2 with h | h
      · omega
      · exact absurd (hiff.1 h) (by omega)
    constructor
    · intro hres
      rcases Nat.le_one_iff_eq_zero_or_eq_one.mp h2 with h0 | h0
      · rw [if_pos (by omega)] at hres
        simp at hres
      · rw [if_neg (by omega), if_pos (by omega)] at hres
        simp at hres
    · intro hc
      omega

/-- C3 witness: a 2-slot MPMC queue, consumer attached fresh (`c0 = 0`),
three produces (`k = 3 > N = 2`) make the first `try_consume` report
`SpedPast`. -/
theorem c3_sped_past_iff_witness :
    ((QueueType.MPMC = QueueType.MPMC ∨ QueueType.MPMC = QueueType.SPMC) ∧
      0 + 3 ≤ 2 ^ 62) ∧
    (((ConsumerBare.from_queue
        ((produceN (mkQueueRaw (2 ^ 1) QueueType.MPMC (0 : Nat))
          (fun i => i) 0).get (by decide))).try_consume
        ((produceN (mkQueueRaw (2 ^ 1) QueueType.MPMC (0 : Nat))
          (fun i => i) (0 + 3)).get (by decide))).1
        = .error .spedPast ↔ 2 ^ 1 < 3) :=
  ⟨⟨Or.inl rfl, by decide⟩,
    c3_sped_past_iff 1 0 3 QueueType.MPMC 0 (fun i => i)
      (Or.inl rfl) (by decide) _ _ (Option.some_get _).symm
      (Option.some_get _).symm⟩

/-- C9.  `try_consume` mutates nothing on an error: when it returns
`Err(Empty)` or `Err(SpedPast)` the consumer's `pos` and `expected_version`
are exactly as before the call, and it advances (by `update_pos`) only on an
`Ok` return.  The queue itself is immutable by construction: the embedding's
`try_consume` takes it read-only, as the source only performs atomic loads
and data reads on it. -/
theorem c9_error_leaves_consumer {T : Type} (c : ConsumerBare)
    (q : InnerQueue T) :
    (∀ e, (c.try_consume q).1 = .error e → (c.try_consume q).2 = c) ∧
    (∀ v, (c.try_consume q).1 = .ok v → (c.try_consume q).2 = c.update_pos) := by
  unfold ConsumerBare.try_consume
  cases h : q.consume c.pos c.expected_version <;> simp

/-- C9 witness: an empty 4-slot queue leaves the consumer `⟨0, 3, 2⟩`
untouched on `Err(Empty)`. -/
theorem c9_error_leaves_consumer_witness :
    (ConsumerBare.try_consume ⟨0, 3, 2⟩
        (mkQueueRaw 4 QueueType.SPMC (0 : Nat))).1
      = .error .empty ∧
    (ConsumerBare.try_consume ⟨0, 3, 2⟩
        (mkQueueRaw 4 QueueType.SPMC (0 : Nat))).2
      = ⟨0, 3, 2⟩ :=
  ⟨rfl,
    (c9_error_leaves_consumer ⟨0, 3, 2⟩
      (mkQueueRaw 4 QueueType.SPMC 0)).1 .empty rfl⟩

theorem try_consume_last_eq {T : Type} (c : ConsumerBare) (q : InnerQueue T) :
    c.try_consume_last q
      = if q.last_pos < c.pos then (.empty, c)
        else match q.consume_always q.last_pos with
          | .ok v => (.ok v,
              ConsumerBare.update_pos ⟨q.last_pos, c.mask, q.last_version⟩)
          | .empty => (.empty, ⟨q.last_pos, c.mask, q.last_version⟩)
          | .spin => (.spin, ⟨q.last_pos, c.mask, q.last_version⟩) := rfl

/-- C4 (amended).  On a queue holding `k ≥ 1` produced records,
`last_pos = (k-1) & mask` and `last_version = ((k-1)/N << 1) + 2`, and the
cell at `last_pos` indeed carries version `last_version`.  But
`try_consume_last` jumps to that newest record and returns `Ok` (advancing
past it) **only when** `last_pos ≥ pos`; whenever `last_pos < pos` — which
can happen with records still unconsumed, once the counter has wrapped below
the consumer's position — it returns `Empty` without touching the consumer. -/
theorem c4_try_consume_last_spec {T : Type} (m k : Nat) (qt : QueueType)
    (z : T) (f : Nat → T) (c : ConsumerBare)
    (hqt : qt = .MPMC ∨ qt = .SPMC) (hk1 : 1 ≤ k) (hk : k ≤ 2 ^ 62) :
    ∀ Q, produceN (mkQueueRaw (2 ^ m) qt z) f k = some Q →
      Q.last_pos = (k - 1) % 2 ^ m ∧
      Q.last_version = 2 * ((k - 1) / 2 ^ m) + 2 ∧
      (Q.buffer Q.last_pos).version = Q.last_version ∧
      (Q.last_pos < c.pos → c.try_consume_last Q = (.empty, c)) ∧
      (c.pos ≤ Q.last_pos →
        c.try_consume_last Q
          = (.ok (f (k - 1)),
             ConsumerBare.update_pos ⟨Q.last_pos, c.mask, Q.last_version⟩)) := by
  intro Q hQ
  have hN : 0 < 2 ^ m := Nat.pos_pow_of_pos m (by omega)
  have hqt' : qt ≠ QueueType.Unknown := by
    rcases hqt with h | h <;> (subst h; intro hc; cases hc)
  have hpow : (2:Nat) ^ 62 < 2 ^ 64 := by norm_num
  have hdle : k / 2 ^ m ≤ k := Nat.div_le_self _ _
  obtain ⟨Q', hQ', _, hmask, hcount, hbuf⟩ :=
    produceN_spec m k qt z f hqt' (by unfold U64; omega)
      (by unfold U64; omega)
  rw [hQ] at hQ'
  injection hQ' with h1; subst h1
  have hd1 : k - 1 < 2 ^ 62 := by omega
  have hddle : (k - 1) / 2 ^ m ≤ k - 1 := Nat.div_le_self _ _
  have hlp : Q.last_pos = (k - 1) % 2 ^ m := by
    unfold InnerQueue.last_pos
    rw [hcount, hmask]
    exact Nat.and_pow_two_sub_one_eq_mod _ m
  have hlv : Q.last_version = 2 * ((k - 1) / 2 ^ m) + 2 := by
    unfold InnerQueue.last_version
    rw [hcount, hmask]
    have hm1 : 2 ^ m - 1 + 1 = 2 ^ m := by omega
    rw [hm1, Nat.shiftLeft_eq, Nat.mod_eq_of_lt (by unfold U64; omega)]
    ring
  have hmlt : (k - 1) % 2 ^ m < 2 ^ m := Nat.mod_lt _ hN
  have hw : writesTo (2 ^ m) k ((k - 1) % 2 ^ m) = (k - 1) / 2 ^ m + 1 := by
    have hs := writesTo_succ (2 ^ m) (k - 1) ((k - 1) % 2 ^ m) hN hmlt
    have hks : k - 1 + 1 = k := by omega
    rw [hks] at hs
    rw [hs, if_pos rfl]
    unfold writesTo
    simp
  have hlw : lastWriteIdx (2 ^ m) k ((k - 1) % 2 ^ m) = k - 1 := by
    have := lastWriteIdx_last (2 ^ m) (k - 1) hN
    have hks : k - 1 + 1 = k := by omega
    rwa [hks] at this
  have hcell : Q.buffer ((k - 1) % 2 ^ m)
      = ⟨2 * ((k - 1) / 2 ^ m) + 2, f (k - 1)⟩ := by
    rw [hbuf _ hmlt]
    unfold cellAt
    rw [hw, if_neg (by omega), hlw]
    congr 1
  have hread : Q.consume_always Q.last_pos = .ok (f (k - 1)) := by
    unfold InnerQueue.consume_always InnerQueue.load
    rw [hlp, hcell]
    unfold Seqlock.read
    show (if 2 * ((k - 1) / 2 ^ m) + 2 < 2 then SeqReadResult.empty
          else if (2 * ((k - 1) / 2 ^ m) + 2) % 2 = 0
          then SeqReadResult.ok (f (k - 1)) else SeqReadResult.spin)
        = SeqReadResult.ok (f (k - 1))
    rw [if_neg (by omega), if_pos (by omega)]
  refine ⟨hlp, hlv, ?_, ?_, ?_⟩
  · rw [hlp, hlv, hcell]
  · intro hlt
    rw [try_consume_last_eq, if_pos hlt]
  · intro hge
    rw [try_consume_last_eq, if_neg (by omega), hread]

/-- C4 counterexample: 2-slot SPMC queue; produce two records, consume one
(consumer now at `pos = 1`), produce a third.  The counter is `3 > 0` and an
unconsumed record is available (`try_consume` returns `Ok 11`), yet
`try_consume_last` returns `Empty` instead of `Ok` with the newest record:
`last_pos = (3-1) & 1 = 0` is below the consumer's position. -/
theorem c4_try_consume_last_counterexample :
    ((produceN (mkQueueRaw 2 QueueType.SPMC (0 : Nat)) (fun i => i + 10) 2).map
        (fun Q2 => ConsumerBare.try_consume
          (ConsumerBare.from_queue (mkQueueRaw 2 QueueType.SPMC (0 : Nat))) Q2)
      = some (.ok 10, ⟨1, 1, 2⟩)) ∧
    ((produceN (mkQueueRaw 2 QueueType.SPMC (0 : Nat)) (fun i => i + 10) 3).map
        (fun Q3 => (Q3.count, (ConsumerBare.try_consume_last ⟨1, 1, 2⟩ Q3).1,
          (ConsumerBare.try_consume ⟨1, 1, 2⟩ Q3).1))
      = some (3, SeqReadResult.empty, Except.ok 11)) := by
  constructor
  · rfl
  · rfl

/-- C4 witness (amended claim): on a 2-slot SPMC queue holding records 10, 11
a consumer at position 0 gets the newest record 11 from `try_consume_last`
and is advanced past it. -/
theorem c4_try_consume_last_spec_witness :
    ((QueueType.SPMC = QueueType.MPMC ∨ QueueType.SPMC = QueueType.SPMC) ∧
      1 ≤ 2 ∧ 2 ≤ 2 ^ 62) ∧
    ConsumerBare.try_consume_last ⟨0, 1, 2⟩
        ((produceN (mkQueueRaw (2 ^ 1) QueueType.SPMC (0 : Nat))
          (fun i => i + 10) 2).get (by decide))
      = (.ok 11, ConsumerBare.update_pos
          ⟨((produceN (mkQueueRaw (2 ^ 1) QueueType.SPMC (0 : Nat))
              (fun i => i + 10) 2).get (by decide)).last_pos, 1,
            ((produceN (mkQueueRaw (2 ^ 1) QueueType.SPMC (0 : Nat))
              (fun i => i + 10) 2).get (by decide)).last_version⟩) :=
  ⟨⟨Or.inr rfl, by decide, by decide⟩,
    (c4_try_consume_last_spec 1 2 QueueType.SPMC 0 (fun i => i + 10)
      ⟨0, 1, 2⟩ (Or.inr rfl) (by decide) (by decide) _
      (Option.some_get _).symm).2.2.2.2 (by decide)⟩

/-- C7.  Creating a queue with requested length `len > 0` not a power of two
rounds up: the queue has `len.next_power_of_two()` slots; attaching to a
pre-existing header whose `mask + 1` is not a power of two fails with
`LengthNotPowerOfTwo`. -/
theorem c7_length_power_of_two {T : Type} (len : Nat) (qt : QueueType) (z : T)
    (h : QueueHeader) (hlen : 0 < len) (hnp : is_power_of_two len = false) :
    (InnerQueue.new len qt z).n_slots = len.nextPowerOfTwo ∧
    (is_power_of_two (h.mask + 1) = false →
      h.from_initialized_ptr = .error .lengthNotPowerOfTwo) := by
  constructor
  · show len.nextPowerOfTwo - 1 + 1 = len.nextPowerOfTwo
    have hpos : 0 < len.nextPowerOfTwo :=
      Nat.pos_of_isPowerOfTwo (Nat.isPowerOfTwo_nextPowerOfTwo len)
    omega
  · intro hh
    unfold QueueHeader.from_initialized_ptr
    simp [hh]

/-- C7 witness: requested length 6 (not a power of two) yields 8 slots, and a
header advertising `mask + 1 = 6` is rejected. -/
theorem c7_length_power_of_two_witness :
    (0 < 6 ∧ is_power_of_two 6 = false) ∧
    (InnerQueue.new 6 QueueType.SPMC (0 : Nat)).n_slots
      = Nat.nextPowerOfTwo 6 ∧
    (QueueHeader.mk QueueType.SPMC 1 64 5 0).from_initialized_ptr
      = .error .lengthNotPowerOfTwo :=
  ⟨⟨by decide, by simp [is_power_of_two]⟩,
    (c7_length_power_of_two 6 QueueType.SPMC 0
      (QueueHeader.mk QueueType.SPMC 1 64 5 0) (by decide)
      (by simp [is_power_of_two])).1,
    (c7_length_power_of_two 6 QueueType.SPMC 0
      (QueueHeader.mk QueueType.SPMC 1 64 5 0) (by decide)
      (by simp [is_power_of_two])).2 (by simp [is_power_of_two])⟩

/-- Bits `48..64` of `id << 48` survive the high mask untouched when
`id < 2^16`. -/
theorem shiftLeft48_and_mask (id : Nat) (hid : id < 2 ^ 16) :
    (id <<< 48) &&& 0xffff000000000000 = id <<< 48 := by
  have hM : (0xffff000000000000 : Nat) = (2 ^ 16 - 1) <<< 48 := by
    rw [Nat.shiftLeft_eq]
    norm_num
  apply Nat.eq_of_testBit_eq
  intro j
  rw [hM]
  simp only [Nat.testBit_and, Nat.testBit_shiftLeft,
    Nat.testBit_two_pow_sub_one]
  by_cases h48 : 48 ≤ j
  · simp only [h48, decide_True, Bool.true_and]
    by_cases h16 : j - 48 < 16
    · simp [h16]
    · have hfb : Nat.testBit id (j - 48) = false :=
        Nat.testBit_lt_two_pow
          (lt_of_lt_of_le hid (Nat.pow_le_pow_right (by omega) (by omega)))
      simp [hfb]
  · simp [h48]

/-- C8.  For a 16-bit tile id and instants `it ≤ pt` whose difference is
below `2^48`, the publish delta built by
`PublishDelta::new(id).from_ingestion_and_publish_t(it, pt)` recovers
`id()` from the top 16 bits and `delta() = pt - it` from the lower 48. -/
theorem c8_publish_delta_roundtrip (id it pt : Nat) (hid : id < 2 ^ 16)
    (hle : it ≤ pt) (hdelta : pt - it < 2 ^ 48) :
    ((PublishDelta.new id).from_ingestion_and_publish_t it pt).id = id ∧
    ((PublishDelta.new id).from_ingestion_and_publish_t it pt).delta
      = pt - it := by
  have hmask48 : (0x0000ffffffffffff : Nat) = 2 ^ 48 - 1 := by norm_num
  have hdval : (pt - it) &&& 0x0000ffffffffffff = pt - it := by
    rw [hmask48, Nat.and_pow_two_sub_one_eq_mod, Nat.mod_eq_of_lt hdelta]
  have hval : ((PublishDelta.new id).from_ingestion_and_publish_t it pt).val
      = 2 ^ 48 * id + (pt - it) := by
    show ((pt - it) &&& 0x0000ffffffffffff) |||
        ((id <<< 48) &&& 0xffff000000000000) = _
    rw [hdval, shiftLeft48_and_mask id hid, Nat.lor_comm, Nat.shiftLeft_eq,
      Nat.mul_comm]
    exact (Nat.mul_add_lt_is_or hdelta id).symm
  constructor
  · show (((PublishDelta.new id).from_ingestion_and_publish_t it pt).val >>> 48)
        % 2 ^ 16 = id
    rw [hval, Nat.shiftRight_eq_div_pow]
    rw [Nat.mul_add_div (by norm_num), Nat.div_eq_of_lt hdelta, Nat.add_zero]
    exact Nat.mod_eq_of_lt hid
  · show ((PublishDelta.new id).from_ingestion_and_publish_t it pt).val
        &&& 0x0000ffffffffffff = pt - it
    rw [hval, hmask48, Nat.and_pow_two_sub_one_eq_mod, Nat.mul_add_mod,
      Nat.mod_eq_of_lt hdelta]

/-- C8 witness: id 3, ingestion tick 100, publish tick 1100. -/
theorem c8_publish_delta_roundtrip_witness :
    (3 < 2 ^ 16 ∧ 100 ≤ 1100 ∧ 1100 - 100 < 2 ^ 48) ∧
    ((PublishDelta.new 3).from_ingestion_and_publish_t 100 1100).id = 3 ∧
    ((PublishDelta.new 3).from_ingestion_and_publish_t 100 1100).delta
      = 1100 - 100 :=
  ⟨⟨by decide, by decide, by decide⟩,
    c8_publish_delta_roundtrip 3 100 1100 (by decide) (by decide) (by decide)⟩

/-! ## TCP send-side lemmas -/

theorem arm_writable_fst (s : SendState) :
    (arm_writable s).1 = { s with writable_armed := true } := by
  unfold arm_writable
  cases h : s.writable_armed
  · rw [if_pos (by simp [h])]
  · rw [if_neg (by simp [h])]
    cases s
    simp_all

theorem enqueue_back_fst (s : SendState) (d : List Nat) :
    (enqueue_back s d).1 = ⟨s.send_backlog ++ [d], true⟩ := by
  unfold enqueue_back
  rw [arm_writable_fst]

theorem enqueue_front_fst (s : SendState) (d : List Nat) :
    (enqueue_front s d).1 = ⟨d :: s.send_backlog, true⟩ := by
  unfold enqueue_front
  rw [arm_writable_fst]

theorem drain_loop_nil (outs : List WriteOutcome) :
    drain_loop [] outs = ([], false) := by
  cases outs <;> rfl

theorem drain_loop_true_src :
    ∀ (outs : List WriteOutcome) (bl bl' : List (List Nat)),
      drain_loop bl outs = (bl', true) → bl ≠ [] ∧ bl' ≠ [] := by
  intro outs
  induction outs with
  | nil =>
    intro bl bl' h
    cases bl with
    | nil => simp [drain_loop] at h
    | cons front rest => simp [drain_loop] at h
  | cons w ws ih =>
    intro bl bl' h
    cases bl with
    | nil => simp [drain_loop] at h
    | cons front rest =>
      refine ⟨by simp, ?_⟩
      cases w with
      | wrote n =>
        cases n with
        | zero =>
          simp [drain_loop] at h
          rw [← h]
          simp
        | succ n1 =>
          simp only [drain_loop] at h
          split at h
          · exact (ih rest bl' h).2
          · exact (ih _ bl' h).2
      | wouldBlock => simp [drain_loop] at h
      | err =>
        simp [drain_loop] at h
        rw [← h]
        simp

theorem write_or_enqueue_wrote_succ (st : SendState)
    (header payload : List Nat) (n1 : Nat) (hb : ¬ st.send_backlog ≠ []) :
    write_or_enqueue_with st header payload (.wrote (n1 + 1))
      = if n1 + 1 = payload.length + FRAME_HEADER_SIZE then (st, .alive)
        else if n1 + 1 < FRAME_HEADER_SIZE then
          enqueue_front (enqueue_front st payload).1 (header.drop (n1 + 1))
        else enqueue_front st (payload.drop (n1 + 1 - FRAME_HEADER_SIZE)) := by
  unfold write_or_enqueue_with
  rw [if_neg hb]
  rfl

/-- C6.  If the readiness invariant `writable_armed ↔ backlog nonempty` holds
before a poll step, it holds after: both for `write_or_enqueue_with` (with
any socket-write outcome `w`) and for a writable-event `drain_backlog` (with
any sequence of write outcomes `outs`) — in particular writable interest is
dropped as soon as the backlog fully drains.  Frame reads on a readable event
touch only the receive state (`read_frame` above), never the backlog or the
flag, so the invariant holds after every poll step; it also holds for a
freshly constructed stream (`initSendState`). -/
theorem c6_writable_iff_backlog (st : SendState) (header payload : List Nat)
    (w : WriteOutcome) (outs : List WriteOutcome)
    (hInv : st.writable_armed = true ↔ st.send_backlog ≠ []) :
    ((write_or_enqueue_with st header payload w).1.writable_armed = true ↔
      (write_or_enqueue_with st header payload w).1.send_backlog ≠ []) ∧
    ((drain_backlog st outs).1.writable_armed = true ↔
      (drain_backlog st outs).1.send_backlog ≠ []) ∧
    (initSendState.writable_armed = true ↔
      initSendState.send_backlog ≠ []) := by
  refine ⟨?_, ?_, by simp [initSendState]⟩
  · by_cases hb : st.send_backlog = []
    · have harm : st.writable_armed = false := by
        cases h : st.writable_armed
        · rfl
        · exact absurd (hInv.1 h) (by simp [hb])
      cases w with
      | wrote n =>
        cases n with
        | zero => simp [write_or_enqueue_with, hb, harm]
        | succ n1 =>
          rw [write_or_enqueue_wrote_succ st header payload n1 (by simp [hb])]
          by_cases h1 : n1 + 1 = payload.length + FRAME_HEADER_SIZE
          · rw [if_pos h1]
            simp [hb, harm]
          · rw [if_neg h1]
            by_cases h2 : n1 + 1 < FRAME_HEADER_SIZE
            · rw [if_pos h2]
              rw [enqueue_front_fst, enqueue_front_fst]
              simp
            · rw [if_neg h2, enqueue_front_fst]
              simp
      | wouldBlock => simp [write_or_enqueue_with, hb, enqueue_back_fst]
      | err => simp [write_or_enqueue_with, hb, harm]
    · have hstep : write_or_enqueue_with st header payload w
          = enqueue_back (enqueue_back st header).1 payload := by
        unfold write_or_enqueue_with
        rw [if_pos hb]
      rw [hstep, enqueue_back_fst, enqueue_back_fst]
      simp
  · unfold drain_backlog
    rcases hd : drain_loop st.send_backlog outs with ⟨bl, fl⟩
    cases fl
    · by_cases hbe : bl = []
      · subst hbe
        cases ha : st.writable_armed <;> simp
      · have hsrc : st.send_backlog ≠ [] := by
          intro hc
          rw [hc, drain_loop_nil] at hd
          injection hd with h1 h2
          exact hbe h1.symm
        have harm : st.writable_armed = true := hInv.2 hsrc
        simp [hbe, harm]
    · have hne := drain_loop_true_src outs st.send_backlog bl hd
      have harm : st.writable_armed = true := hInv.2 hne.1
      simp [harm, hne.2]

/-- C6 witness: a fresh stream (`Inv` holds trivially) whose first write
would block enqueues the frame and arms writable interest. -/
theorem c6_writable_iff_backlog_witness :
    (initSendState.writable_armed = true ↔
      initSendState.send_backlog ≠ []) ∧
    ((write_or_enqueue_with initSendState (toLE 4 1 ++ toLE 8 0) [7]
        WriteOutcome.wouldBlock).1.writable_armed = true ↔
      (write_or_enqueue_with initSendState (toLE 4 1 ++ toLE 8 0) [7]
        WriteOutcome.wouldBlock).1.send_backlog ≠ []) :=
  ⟨by simp [initSendState],
    (c6_writable_iff_backlog initSendState (toLE 4 1 ++ toLE 8 0) [7]
      WriteOutcome.wouldBlock [] (by simp [initSendState])).1⟩

/-! ## TCP framing round-trip and the zero-length-frame divergence -/

theorem toLE_length (k v : Nat) : (toLE k v).length = k := by
  induction k generalizing v with
  | zero => rfl
  | succ k ih => simp [toLE, ih]

theorem fromLE_toLE (k v : Nat) : fromLE (toLE k v) = v % 256 ^ k := by
  induction k generalizing v with
  | zero => simp [toLE, fromLE, Nat.mod_one]
  | succ k ih =>
    show v % 256 + 256 * fromLE (toLE k (v / 256)) = v % 256 ^ (k + 1)
    rw [ih, pow_succ', Nat.mod_mul]

/-- Payload phase: with `acc` already filled and the missing `rest` bytes (then
`p`) on the socket, the loop returns the complete frame and leaves `p`. -/
theorem read_frame_payload_run :
    ∀ (n : Nat) (rest p chunks acc : List Nat) (msgLen ts : Nat),
      rest.length = n → acc.length < msgLen →
      acc.length + rest.length = msgLen →
      read_frame (.readingPayload msgLen acc ts) (rest ++ p) chunks
        = .payloadDone (acc ++ rest) ts p := by
  intro n
  induction n using Nat.strong_induction_on with
  | _ n ih =>
    intro rest p chunks acc msgLen ts hlen hacc htot
    have hrest : rest ≠ [] := by
      intro hc
      rw [hc] at htot
      simp at htot
      omega
    obtain ⟨x, xs, hxe⟩ := List.exists_cons_of_ne_nil hrest
    subst hxe
    rw [List.cons_append, read_frame.eq_def]
    dsimp only
    rw [dif_neg (by omega)]
    rw [← List.cons_append]
    set nv := min (msgLen - acc.length) (chunks.headD 0 + 1) with hnv
    have hxlen : (x :: xs).length = n := hlen
    have hnv1 : 1 ≤ nv := by
      apply le_min
      · omega
      · omega
    have hnvle : nv ≤ (x :: xs).length := by
      have := min_le_left (msgLen - acc.length) (chunks.headD 0 + 1)
      omega
    rw [List.take_append_of_le_length hnvle,
      List.drop_append_of_le_length hnvle]
    have hlen_take : ((x :: xs).take nv).length = nv :=
      List.length_take_of_le hnvle
    by_cases hfin : nv = (x :: xs).length
    · have htk : (x :: xs).take nv = x :: xs := by
        rw [hfin]
        exact List.take_length _
      have hdr : (x :: xs).drop nv = [] := by
        rw [hfin]
        exact List.drop_length _
      rw [if_pos (by rw [List.length_append, hlen_take]; omega)]
      rw [htk, hdr]
      simp
    · have hnvlt : nv < (x :: xs).length := lt_of_le_of_ne hnvle hfin
      rw [if_neg (by rw [List.length_append, hlen_take]; omega)]
      have hrec := ih ((x :: xs).drop nv).length
        (by rw [List.length_drop]; omega)
        ((x :: xs).drop nv) p chunks.tail (acc ++ (x :: xs).take nv) msgLen ts
        rfl
        (by rw [List.length_append, hlen_take]; omega)
        (by rw [List.length_append, hlen_take, List.length_drop]; omega)
      rw [hrec, List.append_assoc, List.take_append_drop]

/-- Header phase: with `buf` already filled and the missing header bytes `h`
(then `p`) on the socket, the loop decodes `msg_len` and `send_ts` from the
full 12-byte header and continues in the payload phase on `p` — for any
continuation result `r` that the payload phase produces under every
chunking. -/
theorem read_frame_header_run :
    ∀ (n : Nat) (h p chunks buf : List Nat) (r : ReadOutcome),
      h.length = n →
      buf.length < FRAME_HEADER_SIZE →
      buf.length + h.length = FRAME_HEADER_SIZE →
      (∀ chunks' : List Nat,
        read_frame (.readingPayload
          (fromLE ((buf ++ h).take LEN_HEADER_SIZE)) []
          (fromLE (((buf ++ h).drop LEN_HEADER_SIZE).take TS_HEADER_SIZE)))
          p chunks' = r) →
      read_frame (.readingHeader buf) (h ++ p) chunks = r := by
  intro n
  induction n using Nat.strong_induction_on with
  | _ n ih =>
    intro h p chunks buf r hlen hbuf htot hcont
    have hne : h ≠ [] := by
      intro hc
      rw [hc] at htot
      simp at htot
      omega
    obtain ⟨x, xs, hxe⟩ := List.exists_cons_of_ne_nil hne
    subst hxe
    rw [List.cons_append, read_frame.eq_def]
    dsimp only
    rw [dif_neg (by omega)]
    rw [← List.cons_append]
    set nv := min (FRAME_HEADER_SIZE - buf.length) (chunks.headD 0 + 1)
      with hnv
    have hxlen : (x :: xs).length = n := hlen
    have hnv1 : 1 ≤ nv := le_min (by omega) (by omega)
    have hnvle : nv ≤ (x :: xs).length := by
      have := min_le_left (FRAME_HEADER_SIZE - buf.length) (chunks.headD 0 + 1)
      omega
    rw [List.take_append_of_le_length hnvle,
      List.drop_append_of_le_length hnvle]
    have hlen_take : ((x :: xs).take nv).length = nv :=
      List.length_take_of_le hnvle
    by_cases hfin : nv = (x :: xs).length
    · have htk : (x :: xs).take nv = x :: xs := by
        rw [hfin]
        exact List.take_length _
      have hdr : (x :: xs).drop nv = [] := by
        rw [hfin]
        exact List.drop_length _
      rw [if_pos (by rw [List.length_append, hlen_take]; omega)]
      rw [htk, hdr]
      simp only [List.nil_append]
      exact hcont chunks.tail
    · have hnvlt : nv < (x :: xs).length := lt_of_le_of_ne hnvle hfin
      rw [if_neg (by rw [List.length_append, hlen_take]; omega)]
      have hcont2 : ∀ chunks' : List Nat,
          read_frame (.readingPayload
            (fromLE (((buf ++ (x :: xs).take nv) ++ (x :: xs).drop nv).take
              LEN_HEADER_SIZE)) []
            (fromLE ((((buf ++ (x :: xs).take nv) ++ (x :: xs).drop nv).drop
              LEN_HEADER_SIZE).take TS_HEADER_SIZE)))
            p chunks' = r := by
        rw [List.append_assoc, List.take_append_drop]
        exact hcont
      exact ih ((x :: xs).drop nv).length (by rw [List.length_drop]; omega)
        ((x :: xs).drop nv) p chunks.tail (buf ++ (x :: xs).take nv) r rfl
        (by rw [List.length_append, hlen_take]; omega)
        (by rw [List.length_append, hlen_take, List.length_drop]; omega)
        hcont2

/-- TCP framing round-trip for every payload of length `L ≥ 1`: serialising
and feeding the frame's bytes to `read_frame` under any chunking delivers
exactly the payload and the sender's timestamp (see
`c5_zero_length_frame_diverges` for `L = 0`, where the source loops
forever). -/
theorem tcp_frame_roundtrip (payload : List Nat) (ts : Nat)
    (chunks : List Nat) (hne : payload ≠ []) (hlen : payload.length < 2 ^ 32)
    (hts : ts < 2 ^ 64) :
    read_frame (.readingHeader []) (frameBytes payload ts) chunks
      = .payloadDone payload ts [] := by
  have hple : payload.length % 2 ^ 32 = payload.length := Nat.mod_eq_of_lt hlen
  have htse : ts % 2 ^ 64 = ts := Nat.mod_eq_of_lt hts
  have hfb : frameBytes payload ts
      = (toLE 4 payload.length ++ toLE 8 ts) ++ payload := by
    unfold frameBytes
    rw [hple, htse, List.append_assoc]
  rw [hfb]
  have hplen : 0 < payload.length := List.length_pos.2 hne
  apply read_frame_header_run (toLE 4 payload.length ++ toLE 8 ts).length
    _ _ chunks [] _ rfl
    (by simp [FRAME_HEADER_SIZE, LEN_HEADER_SIZE, TS_HEADER_SIZE])
    (by simp [toLE_length, FRAME_HEADER_SIZE, LEN_HEADER_SIZE, TS_HEADER_SIZE])
  intro chunks'
  have h4 : (LEN_HEADER_SIZE : Nat) ≤ (toLE 4 payload.length).length := by
    simp [toLE_length, LEN_HEADER_SIZE]
  have htk4 : (([] : List Nat) ++ (toLE 4 payload.length ++ toLE 8 ts)).take
      LEN_HEADER_SIZE = toLE 4 payload.length := by
    rw [List.nil_append, List.take_append_of_le_length h4]
    exact List.take_of_length_le (by simp [toLE_length, LEN_HEADER_SIZE])
  have hdr4 : (([] : List Nat) ++ (toLE 4 payload.length ++ toLE 8 ts)).drop
      LEN_HEADER_SIZE = toLE 8 ts := by
    rw [List.nil_append, List.drop_append_of_le_length h4]
    rw [show (LEN_HEADER_SIZE : Nat) = (toLE 4 payload.length).length from
      by simp [toLE_length, LEN_HEADER_SIZE]]
    rw [List.drop_length]
    exact List.nil_append _
  have hdec1 : fromLE ((([] : List Nat) ++
      (toLE 4 payload.length ++ toLE 8 ts)).take LEN_HEADER_SIZE)
      = payload.length := by
    rw [htk4, fromLE_toLE]
    have h32 : (256:Nat) ^ 4 = 2 ^ 32 := by norm_num
    rw [h32]
    exact hple
  have hdec2 : fromLE (((([] : List Nat) ++
      (toLE 4 payload.length ++ toLE 8 ts)).drop LEN_HEADER_SIZE).take
      TS_HEADER_SIZE) = ts := by
    rw [hdr4]
    rw [List.take_of_length_le (by simp [toLE_length, TS_HEADER_SIZE])]
    rw [fromLE_toLE]
    have h64 : (256:Nat) ^ 8 = 2 ^ 64 := by norm_num
    rw [h64]
    exact htse
  rw [hdec1, hdec2]
  have hpay := read_frame_payload_run payload.length payload [] chunks' []
    payload.length ts rfl (by simpa using hplen) (by simp)
  rw [List.append_nil] at hpay
  simpa using hpay

/-- The source's `read_frame` with `rx_state = ReadingPayload { msg_len: 0 }`
never reads and never returns: both `while` guards are false, so the outer
`loop` spins forever.  In the model: `stuck`, for every socket content and
chunking. -/
theorem read_frame_zero_msg_stuck (stream chunks : List Nat) (ts : Nat) :
    read_frame (.readingPayload 0 [] ts) stream chunks
      = .stuck (.readingPayload 0 [] ts) := by
  rw [read_frame.eq_def]
  dsimp only
  rw [dif_pos (by omega)]

/-- C5 (code bug).  Feeding the exact wire bytes of a zero-length frame
(length header `L = 0`, send timestamp 7, no payload bytes) to the receive
state machine never delivers the frame: after consuming the 12 header bytes
under any chunking, the source busy-loops forever in
`ReadingPayload { msg_len: 0 }` (modelled `stuck`), instead of handing the
handler a 0-byte payload with `send_ts = 7` as the round-trip law promises
(for every `L ≥ 1` the law holds: `tcp_frame_roundtrip`). -/
theorem c5_zero_length_frame_diverges :
    ∀ chunks : List Nat,
      read_frame (.readingHeader []) (frameBytes [] 7) chunks
        = .stuck (.readingPayload 0 [] 7) := by
  intro chunks
  have hfb : frameBytes [] 7 = (toLE 4 0 ++ toLE 8 7) ++ [] := by
    unfold frameBytes
    norm_num
  rw [hfb]
  apply read_frame_header_run (toLE 4 0 ++ toLE 8 7).length _ _ chunks [] _
    rfl
    (by simp [FRAME_HEADER_SIZE, LEN_HEADER_SIZE, TS_HEADER_SIZE])
    (by simp [toLE_length, FRAME_HEADER_SIZE, LEN_HEADER_SIZE, TS_HEADER_SIZE])
  intro chunks'
  have hdec1 : fromLE ((([] : List Nat) ++ (toLE 4 0 ++ toLE 8 7)).take
      LEN_HEADER_SIZE) = 0 := by decide
  have hdec2 : fromLE (((([] : List Nat) ++ (toLE 4 0 ++ toLE 8 7)).drop
      LEN_HEADER_SIZE).take TS_HEADER_SIZE) = 7 := by decide
  rw [hdec1, hdec2]
  exact read_frame_zero_msg_stuck [] chunks' 7

end Flux
